import Mathlib

/-!
Verification of `tournament_generator.py` (class `TournamentGenerator`).

The Python source is embedded shallowly:
* `generate_participants`  — `TournamentGenerator.generate_participants` (line 24)
* `combinations2`          — `itertools.combinations(participants, 2)` as used at line 31
* `selectStep`/`selectBest`— the linear scan for the best pair (lines 43-60)
* `bumpLoad`/`greedyGo`    — the greedy ordering loop (lines 40-82)
* `seatDecision`/`updW`/`balanceGo`/`apply_player_balance` — lines 89-128
* `generate_matches`       — lines 28-87
* `splitGo`/`split_participants` — lines 130-168
* `mainRun`                — the input-validation boundary of `main` (lines 325-363)

Match loads (`match_count`) and seat weights (`player_weights`) are Python
dicts keyed by participant; they are embedded as total functions initialised
to the constant 0, which agrees with the dicts on every key the code reads.
-/

variable {α : Type*} [DecidableEq α] {β : Type*} [DecidableEq β]

/-- `generate_participants(count)`: labels `chr(ord('A')+i)` for `i < count`. -/
def generate_participants (count : Nat) : List Char :=
  (List.range count).map (fun i => Char.ofNat (65 + i))

/-- `itertools.combinations(l, 2)`: all unordered pairs `(l[i], l[j])` with
`i < j`, in lexicographic order of the index pair. -/
def combinations2 : List α → List (α × α)
  | [] => []
  | x :: xs => (xs.map (fun y => (x, y))) ++ combinations2 xs

/-- Score of a candidate pair: `match_count[p1] + match_count[p2]` (line 49). -/
def pairScore (mc : α → Nat) (c : α × α) : Nat :=
  mc c.1 + mc c.2

/-- Tie-break quantity: `min(match_count[p1], match_count[p2])` (line 57). -/
def pairMinLoad (mc : α → Nat) (c : α × α) : Nat :=
  min (mc c.1) (mc c.2)

/-- One step of the scan over `remaining_combinations` (lines 46-60).  The
state is `(best_match, best_score)`; `none` as score plays the role of the
initial `float('inf')`, `none` as match the initial `best_match = None`. -/
def selectStep (mc : α → Nat) (st : Option (α × α) × Option Nat) (c : α × α) :
    Option (α × α) × Option Nat :=
  let score := mc c.1 + mc c.2
  match st with
  | (_, none) => (some c, some score)
  | (bestMatch, some bestScore) =>
    if score < bestScore then (some c, some score)
    else if score = bestScore then
      match bestMatch with
      | some b =>
          if min (mc c.1) (mc c.2) < min (mc b.1) (mc b.2) then (some c, some bestScore)
          else (some b, some bestScore)
      | none => (none, some bestScore)
    else (bestMatch, some bestScore)

/-- The full scan: the value of `best_match` after the `for` loop. -/
def selectBest (mc : α → Nat) (rem : List (α × α)) : Option (α × α) :=
  (rem.foldl (selectStep mc) (none, none)).1

/-- `match_count[p] += 1` (lines 68, 79). -/
def bump1 (mc : α → Nat) (p : α) : α → Nat :=
  fun x => if x = p then mc x + 1 else mc x

/-- Updating both members of the selected pair (lines 67-69). -/
def bumpLoad (mc : α → Nat) (b : α × α) : α → Nat :=
  bump1 (bump1 mc b.1) b.2

/-- `remaining_combinations.remove(best_match)` (lines 72, 82): remove the
first occurrence of an element from a list. -/
def eraseFirst : List (α × α) → (α × α) → List (α × α)
  | [], _ => []
  | x :: xs, a => if x = a then xs else x :: eraseFirst xs a

/-- The body of the greedy ordering loop (lines 40-82), with explicit fuel so
that the recursion is structural: select the best pair (`best_match` when set,
otherwise `remaining_combinations[0]` — the fallback at lines 73-82), append
it, bump both loads, and remove it from the list. -/
def greedyAux (mc : α → Nat) : Nat → List (α × α) → List (α × α)
  | 0, _ => []
  | _ + 1, [] => []
  | fuel + 1, c :: rest =>
    let b := (selectBest mc (c :: rest)).getD c
    b :: greedyAux (bumpLoad mc b) fuel (eraseFirst (c :: rest) b)

/-- The greedy ordering loop (lines 40-82): one iteration removes exactly one
pair, so `rem.length` rounds of `greedyAux` run the loop to completion. -/
def greedyGo (mc : α → Nat) (rem : List (α × α)) : List (α × α) :=
  greedyAux mc rem.length rem

/-- Seat decision for one pair (lines 107-119): `first_player`/`second_player`. -/
def seatDecision (w : α → Int) (p q : α) : α × α :=
  if w p < w q then (p, q)
  else if w p > w q then (q, p)
  else (p, q)

/-- `player_weights[first] += 1; player_weights[second] -= 1` (lines 122-123). -/
def updW (w : α → Int) (first second : α) : α → Int :=
  fun x =>
    if x = second then (if x = first then w x + 1 else w x) - 1
    else (if x = first then w x + 1 else w x)

/-- The seat-balancing loop of `apply_player_balance` (lines 104-126). -/
def balanceGo (w : α → Int) : List (α × α) → List (α × α)
  | [] => []
  | (p, q) :: rest =>
    let m := seatDecision w p q
    m :: balanceGo (updW w m.1 m.2) rest

/-- `apply_player_balance` (lines 89-128): weights start at 0. -/
def apply_player_balance (ms : List (α × α)) : List (α × α) :=
  balanceGo (fun _ => 0) ms

/-- Seat weights after processing a match list (the state of `player_weights`). -/
def seatWeights (w : α → Int) : List (α × α) → (α → Int)
  | [] => w
  | (p, q) :: rest =>
    let m := seatDecision w p q
    seatWeights (updW w m.1 m.2) rest

/-- `generate_matches` (lines 28-87): greedy ordering then seat balancing. -/
def generate_matches (participants : List α) : List (α × α) :=
  apply_player_balance (greedyGo (fun _ => 0) (combinations2 participants))

/-- Match loads accumulated over a (prefix of a) pair sequence. -/
def matchLoads (mc : α → Nat) (ms : List (α × α)) : α → Nat :=
  ms.foldl bumpLoad mc

/-- The pair members occurring in a pair list (helper for the relabelling
lemmas below). -/
def comps (ms : List (α × α)) : List α :=
  ms.map Prod.fst ++ ms.map Prod.snd

/-- The slicing loop shared by the 3- and 4-table branches of
`split_participants` (lines 146-154 and 160-168): table `i` gets
`base + (1 if i < remainder else 0)` members, sliced contiguously. -/
def splitGo (base remainder : Nat) : Nat → Nat → List α → List (List α)
  | _, 0, _ => []
  | i, k + 1, ps =>
    let size := base + (if i < remainder then 1 else 0)
    ps.take size :: splitGo base remainder (i + 1) k (ps.drop size)

/-- `split_participants` (lines 130-168). -/
def split_participants (participants : List α) : List (List α) :=
  let total := participants.length
  if total ≤ 6 then [participants]
  else if total ≤ 12 then
    let mid := total / 2
    [participants.take mid, participants.drop mid]
  else if total ≤ 18 then
    splitGo (total / 3) (total % 3) 0 3 participants
  else
    splitGo (total / 4) (total % 4) 0 4 participants

/-- Message printed for a non-numeric count (line 361). -/
def msgNotNumber : String := "エラー: 数値を入力してください。"

/-- Message printed for a count below 3 (line 334). -/
def msgTooFew : String := "エラー: 参加者数は3人以上で入力してください。"

/-- Message printed for a count above 24 (line 338). -/
def msgTooMany : String := "エラー: 参加者数は24人以下で入力してください。"

/-- Outcome of `main`: either a rejection message printed before the core
runs, or the core data computed by `generate_tournament`. -/
inductive MainOutcome : Type
  | rejected (msg : String)
  | generated (tables : List (List Char)) (schedules : List (List (Char × Char)))
deriving DecidableEq

/-- The validation boundary of `main` (lines 325-363): the read count is
modelled as `Option Int`, `none` standing for the `ValueError` raised by
`int(...)` on non-numeric input.  Core functions are invoked only after all
three checks pass. -/
def mainRun (input : Option Int) : MainOutcome :=
  match input with
  | none => .rejected msgNotNumber
  | some count =>
    if count < 3 then .rejected msgTooFew
    else if count > 24 then .rejected msgTooMany
    else
      let parts := generate_participants count.toNat
      let tables := split_participants parts
      .generated tables (tables.map generate_matches)

/-! ### Basic facts about the best-pair scan -/

theorem selectStep_none_eq (mc : α → Nat) (st1 : Option (α × α)) (c : α × α) :
    selectStep mc (st1, none) c = (some c, some (mc c.1 + mc c.2)) := rfl

theorem selectStep_none_some (mc : α → Nat) (c : α × α) (s : Nat) :
    selectStep mc (none, some s) c =
      if mc c.1 + mc c.2 < s then (some c, some (mc c.1 + mc c.2))
      else if mc c.1 + mc c.2 = s then (none, some s)
      else (none, some s) := rfl

theorem selectStep_some_some (mc : α → Nat) (b c : α × α) (bs : Nat) :
    selectStep mc (some b, some bs) c =
      if mc c.1 + mc c.2 < bs then (some c, some (mc c.1 + mc c.2))
      else if mc c.1 + mc c.2 = bs then
        (if min (mc c.1) (mc c.2) < min (mc b.1) (mc b.2) then (some c, some bs)
         else (some b, some bs))
      else (some b, some bs) := rfl

theorem eraseFirst_length_of_mem (l : List (α × α)) (a : α × α) (h : a ∈ l) :
    (eraseFirst l a).length = l.length - 1 := by
  induction l with
  | nil => simp at h
  | cons x xs ih =>
    by_cases hx : x = a
    · simp [eraseFirst, hx]
    · have ha : a ∈ xs := by
        rcases List.mem_cons.mp h with h1 | h1
        · exact absurd h1.symm hx
        · exact h1
      have hpos : 0 < xs.length := List.length_pos.mpr (List.ne_nil_of_mem ha)
      simp only [eraseFirst, if_neg hx, List.length_cons, ih ha]
      omega

theorem perm_cons_eraseFirst (l : List (α × α)) (a : α × α) (h : a ∈ l) :
    l.Perm (a :: eraseFirst l a) := by
  induction l with
  | nil => simp at h
  | cons x xs ih =>
    by_cases hx : x = a
    · subst hx
      simp [eraseFirst]
    · have ha : a ∈ xs := by
        rcases List.mem_cons.mp h with h1 | h1
        · exact absurd h1.symm hx
        · exact h1
      simp only [eraseFirst, if_neg hx]
      exact ((ih ha).cons x).trans (List.Perm.swap a x _)

theorem eraseFirst_subset (l : List (α × α)) (a : α × α) (x : α × α)
    (hx : x ∈ eraseFirst l a) : x ∈ l := by
  induction l with
  | nil => simp [eraseFirst] at hx
  | cons y ys ih =>
    by_cases hy : y = a
    · simp only [eraseFirst, if_pos hy] at hx
      exact List.mem_cons_of_mem _ hx
    · simp only [eraseFirst, if_neg hy, List.mem_cons] at hx
      rcases hx with rfl | hx
      · exact List.mem_cons_self _ _
      · exact List.mem_cons_of_mem _ (ih hx)

theorem selectStep_fst (mc : α → Nat) (st : Option (α × α) × Option Nat) (c : α × α) :
    (selectStep mc st c).1 = st.1 ∨ (selectStep mc st c).1 = some c := by
  rcases st with ⟨b, s⟩
  rcases s with _ | s
  · exact Or.inr rfl
  · rcases b with _ | b
    · simp only [selectStep]
      split
      · exact Or.inr rfl
      · split
        · exact Or.inl rfl
        · exact Or.inl rfl
    · simp only [selectStep]
      split
      · exact Or.inr rfl
      · split
        · split
          · exact Or.inr rfl
          · exact Or.inl rfl
        · exact Or.inl rfl

theorem selectBest_aux_mem (mc : α → Nat) :
    ∀ (l : List (α × α)) (st : Option (α × α) × Option Nat) (b : α × α),
      (l.foldl (selectStep mc) st).1 = some b → st.1 = some b ∨ b ∈ l := by
  intro l
  induction l with
  | nil => intro st b h; exact Or.inl h
  | cons c t ih =>
    intro st b h
    rcases ih (selectStep mc st c) b h with h1 | h1
    · rcases selectStep_fst mc st c with h2 | h2
      · exact Or.inl (h2 ▸ h1)
      · rw [h1] at h2
        exact Or.inr (by simp [Option.some.injEq] at h2; simp [h2])
    · exact Or.inr (List.mem_cons_of_mem _ h1)

theorem selectBest_mem (mc : α → Nat) (rem : List (α × α)) (b : α × α)
    (h : selectBest mc rem = some b) : b ∈ rem := by
  rcases selectBest_aux_mem mc rem (none, none) b h with h1 | h1
  · simp at h1
  · exact h1

theorem getD_selectBest_mem (mc : α → Nat) (c : α × α) (rest : List (α × α)) :
    (selectBest mc (c :: rest)).getD c ∈ c :: rest := by
  rcases h : selectBest mc (c :: rest) with _ | b
  · simp
  · simpa using selectBest_mem mc (c :: rest) b h

theorem greedyAux_fuel (mc : α → Nat) :
    ∀ (fuel fuel' : Nat) (rem : List (α × α)), rem.length ≤ fuel → rem.length ≤ fuel' →
      greedyAux mc fuel rem = greedyAux mc fuel' rem := by
  intro fuel
  induction fuel generalizing mc with
  | zero =>
    intro fuel' rem h _
    have : rem = [] := List.eq_nil_of_length_eq_zero (Nat.le_zero.mp h)
    subst this
    cases fuel' <;> rfl
  | succ f ih =>
    intro fuel' rem h h'
    cases rem with
    | nil => cases fuel' <;> rfl
    | cons c rest =>
      cases fuel' with
      | zero => simp at h'
      | succ f' =>
        simp only [greedyAux]
        have hmem := getD_selectBest_mem mc c rest
        have hlen := eraseFirst_length_of_mem _ _ hmem
        simp only [List.length_cons] at h h' hlen
        have h1 : (eraseFirst (c :: rest) ((selectBest mc (c :: rest)).getD c)).length ≤ f := by
          rw [hlen]; omega
        have h2 : (eraseFirst (c :: rest) ((selectBest mc (c :: rest)).getD c)).length ≤ f' := by
          rw [hlen]; omega
        rw [ih _ f' _ h1 h2]

theorem greedyGo_nil (mc : α → Nat) : greedyGo mc ([] : List (α × α)) = [] := rfl

theorem greedyGo_cons (mc : α → Nat) (c : α × α) (rest : List (α × α)) :
    greedyGo mc (c :: rest) =
      (selectBest mc (c :: rest)).getD c ::
        greedyGo (bumpLoad mc ((selectBest mc (c :: rest)).getD c))
          (eraseFirst (c :: rest) ((selectBest mc (c :: rest)).getD c)) := by
  have hmem := getD_selectBest_mem mc c rest
  have hlen := eraseFirst_length_of_mem _ _ hmem
  simp only [List.length_cons] at hlen
  simp only [greedyGo, List.length_cons, greedyAux]
  congr 1
  exact greedyAux_fuel _ rest.length _ _ (by omega) (by omega)

/-! ### The scan computes the first lexicographic argmin -/

theorem selectFold_spec (mc : α → Nat) (l : List (α × α)) :
    (l = [] ∧ l.foldl (selectStep mc) (none, none) = (none, none)) ∨
    ∃ b, l.foldl (selectStep mc) (none, none) = (some b, some (pairScore mc b)) ∧
      (∃ l1 l2, l = l1 ++ b :: l2 ∧
        ∀ c ∈ l1, pairScore mc b < pairScore mc c ∨
          (pairScore mc c = pairScore mc b ∧ pairMinLoad mc b < pairMinLoad mc c)) ∧
      ∀ c ∈ l, pairScore mc b < pairScore mc c ∨
        (pairScore mc c = pairScore mc b ∧ pairMinLoad mc b ≤ pairMinLoad mc c) := by
  induction l using List.reverseRecOn with
  | nil => exact Or.inl ⟨rfl, rfl⟩
  | append_singleton l c ih =>
    rw [List.foldl_append]
    rcases ih with ⟨hl, hst⟩ | ⟨b, hst, ⟨l1, l2, hdec, hl1⟩, hall⟩
    · subst hl
      refine Or.inr ⟨c, ?_, ⟨[], [], by simp, by simp⟩, ?_⟩
      · simp [selectStep, pairScore]
      · intro x hx
        simp only [List.nil_append, List.mem_singleton] at hx
        subst hx
        exact Or.inr ⟨rfl, le_refl _⟩
    · rw [hst]
      simp only [List.foldl_cons, List.foldl_nil]
      by_cases h1 : pairScore mc c < pairScore mc b
      · have hstep : selectStep mc (some b, some (pairScore mc b)) c =
            (some c, some (pairScore mc c)) := by
          rw [selectStep_some_some,
            if_pos (show mc c.1 + mc c.2 < pairScore mc b from h1)]
          rfl
        rw [hstep]
        refine Or.inr ⟨c, rfl, ⟨l, [], by simp, ?_⟩, ?_⟩
        · intro x hx
          rcases hall x hx with h | ⟨h, _⟩
          · exact Or.inl (h1.trans h)
          · exact Or.inl (h ▸ h1)
        · intro x hx
          rcases List.mem_append.mp hx with hx | hx
          · rcases hall x hx with h | ⟨h, _⟩
            · exact Or.inl (h1.trans h)
            · exact Or.inl (h ▸ h1)
          · rw [List.mem_singleton] at hx
            subst hx
            exact Or.inr ⟨rfl, le_refl _⟩
      · by_cases h2 : pairScore mc c = pairScore mc b
        · by_cases h3 : pairMinLoad mc c < pairMinLoad mc b
          · have hstep : selectStep mc (some b, some (pairScore mc b)) c =
                (some c, some (pairScore mc b)) := by
              rw [selectStep_some_some,
                if_neg (show ¬ mc c.1 + mc c.2 < pairScore mc b from h1),
                if_pos (show mc c.1 + mc c.2 = pairScore mc b from h2),
                if_pos (show min (mc c.1) (mc c.2) < min (mc b.1) (mc b.2) from h3)]
            rw [hstep, ← h2]
            refine Or.inr ⟨c, rfl, ⟨l, [], by simp, ?_⟩, ?_⟩
            · intro x hx
              rcases hall x hx with h | ⟨h, hm⟩
              · exact Or.inl (h2 ▸ h)
              · exact Or.inr ⟨h.trans h2.symm, lt_of_lt_of_le h3 hm⟩
            · intro x hx
              rcases List.mem_append.mp hx with hx | hx
              · rcases hall x hx with h | ⟨h, hm⟩
                · exact Or.inl (h2 ▸ h)
                · exact Or.inr ⟨h.trans h2.symm, le_of_lt (lt_of_lt_of_le h3 hm)⟩
              · rw [List.mem_singleton] at hx
                subst hx
                exact Or.inr ⟨rfl, le_refl _⟩
          · have hstep : selectStep mc (some b, some (pairScore mc b)) c =
                (some b, some (pairScore mc b)) := by
              rw [selectStep_some_some,
                if_neg (show ¬ mc c.1 + mc c.2 < pairScore mc b from h1),
                if_pos (show mc c.1 + mc c.2 = pairScore mc b from h2),
                if_neg (show ¬ min (mc c.1) (mc c.2) < min (mc b.1) (mc b.2) from h3)]
            rw [hstep]
            refine Or.inr ⟨b, rfl, ⟨l1, l2 ++ [c], by rw [hdec]; simp, hl1⟩, ?_⟩
            intro x hx
            rcases List.mem_append.mp hx with hx | hx
            · exact hall x hx
            · rw [List.mem_singleton] at hx
              subst hx
              exact Or.inr ⟨h2, not_lt.mp h3⟩
        · have hscore : pairScore mc b < pairScore mc c := by
            rcases Nat.lt_trichotomy (pairScore mc c) (pairScore mc b) with h | h | h
            · exact absurd h h1
            · exact absurd h h2
            · exact h
          have hstep : selectStep mc (some b, some (pairScore mc b)) c =
              (some b, some (pairScore mc b)) := by
            rw [selectStep_some_some,
              if_neg (show ¬ mc c.1 + mc c.2 < pairScore mc b from h1),
              if_neg (show ¬ mc c.1 + mc c.2 = pairScore mc b from h2)]
          rw [hstep]
          refine Or.inr ⟨b, rfl, ⟨l1, l2 ++ [c], by rw [hdec]; simp, hl1⟩, ?_⟩
          intro x hx
          rcases List.mem_append.mp hx with hx | hx
          · exact hall x hx
          · rw [List.mem_singleton] at hx
            subst hx
            exact Or.inl hscore

theorem selectBest_spec (mc : α → Nat) (rem : List (α × α)) (h : rem ≠ []) :
    ∃ b, selectBest mc rem = some b ∧
      (∃ l1 l2, rem = l1 ++ b :: l2 ∧
        ∀ c ∈ l1, pairScore mc b < pairScore mc c ∨
          (pairScore mc c = pairScore mc b ∧ pairMinLoad mc b < pairMinLoad mc c)) ∧
      ∀ c ∈ rem, pairScore mc b < pairScore mc c ∨
        (pairScore mc c = pairScore mc b ∧ pairMinLoad mc b ≤ pairMinLoad mc c) := by
  rcases selectFold_spec mc rem with ⟨hl, _⟩ | ⟨b, hst, hdec, hall⟩
  · exact absurd hl h
  · exact ⟨b, by simp [selectBest, hst], hdec, hall⟩

/-! ### The greedy loop emits a permutation of its input -/

theorem greedyGo_perm_aux (n : Nat) :
    ∀ (mc : α → Nat) (rem : List (α × α)), rem.length = n → (greedyGo mc rem).Perm rem := by
  induction n using Nat.strong_induction_on with
  | _ n ih =>
    intro mc rem hn
    cases rem with
    | nil => simp [greedyGo_nil]
    | cons c rest =>
      rw [greedyGo_cons]
      have hmem := getD_selectBest_mem mc c rest
      have hlen := eraseFirst_length_of_mem _ _ hmem
      simp only [List.length_cons] at hn hlen
      have hrec := ih (eraseFirst (c :: rest) ((selectBest mc (c :: rest)).getD c)).length
        (by omega) (bumpLoad mc ((selectBest mc (c :: rest)).getD c)) _ rfl
      exact ((hrec.cons _).trans (perm_cons_eraseFirst _ _ hmem).symm)

theorem greedyGo_perm (mc : α → Nat) (rem : List (α × α)) : (greedyGo mc rem).Perm rem :=
  greedyGo_perm_aux rem.length mc rem rfl

/-! ### Facts about `combinations2` -/

theorem combinations2_length (l : List α) : (combinations2 l).length = l.length.choose 2 := by
  induction l with
  | nil => rfl
  | cons x xs ih =>
    simp [combinations2, ih, Nat.choose_succ_succ, Nat.choose_one_right, Nat.add_comm]

theorem combinations2_mem_components (l : List α) (p : α × α) (hp : p ∈ combinations2 l) :
    p.1 ∈ l ∧ p.2 ∈ l := by
  induction l with
  | nil => simp [combinations2] at hp
  | cons x xs ih =>
    simp only [combinations2, List.mem_append, List.mem_map] at hp
    rcases hp with ⟨y, hy, hyp⟩ | hp
    · subst hyp
      exact ⟨List.mem_cons_self _ _, List.mem_cons_of_mem _ hy⟩
    · rcases ih hp with ⟨h1, h2⟩
      exact ⟨List.mem_cons_of_mem _ h1, List.mem_cons_of_mem _ h2⟩

theorem combinations2_map (f : α → β) (l : List α) :
    combinations2 (l.map f) = (combinations2 l).map (Prod.map f f) := by
  induction l with
  | nil => rfl
  | cons x xs ih =>
    simp only [List.map_cons, combinations2, ih, List.map_map, List.map_append]
    rfl

theorem combinations2_sym2_nodup (l : List α) (h : l.Nodup) :
    ((combinations2 l).map Sym2.mk).Nodup := by
  induction l with
  | nil => simp [combinations2]
  | cons x xs ih =>
    rcases List.nodup_cons.mp h with ⟨hx, hxs⟩
    simp only [combinations2, List.map_append, List.map_map]
    rw [List.nodup_append]
    refine ⟨?_, ih hxs, ?_⟩
    · refine List.Nodup.map ?_ hxs
      intro y y' hyy
      simp only [Function.comp_apply, Sym2.eq_iff] at hyy
      rcases hyy with ⟨_, h2⟩ | ⟨h1, h2⟩
      · exact h2
      · rw [← h1, h2]
    · intro s hs hs'
      simp only [List.mem_map, Function.comp_apply] at hs hs'
      rcases hs with ⟨y, hy, rfl⟩
      rcases hs' with ⟨p, hp, hps⟩
      rcases combinations2_mem_components xs p hp with ⟨h1, _⟩
      have := Sym2.eq_iff.mp hps
      rcases this with ⟨ha, _⟩ | ⟨_, hb⟩
      · exact hx (ha ▸ h1)
      · rcases combinations2_mem_components xs p hp with ⟨_, h2⟩
        exact hx (hb ▸ h2)

theorem combinations2_sym2_complete (l : List α) (a b : α) (ha : a ∈ l) (hb : b ∈ l)
    (hab : a ≠ b) : Sym2.mk (a, b) ∈ (combinations2 l).map Sym2.mk := by
  induction l with
  | nil => simp at ha
  | cons x xs ih =>
    simp only [combinations2, List.map_append, List.mem_append, List.map_map]
    rcases List.mem_cons.mp ha with rfl | ha'
    · rcases List.mem_cons.mp hb with rfl | hb'
      · exact absurd rfl hab
      · exact Or.inl (List.mem_map.mpr ⟨b, hb', rfl⟩)
    · rcases List.mem_cons.mp hb with rfl | hb'
      · exact Or.inl (List.mem_map.mpr ⟨a, ha', Sym2.eq_swap⟩)
      · exact Or.inr (ih ha' hb')

/-! ### Facts about the seat balancer -/

theorem seatDecision_sym2 (w : α → Int) (p q : α) :
    Sym2.mk (seatDecision w p q) = Sym2.mk (p, q) := by
  unfold seatDecision
  split_ifs <;> first | rfl | exact Sym2.eq_swap

theorem balanceGo_sym2 :
    ∀ (ms : List (α × α)) (w : α → Int), (balanceGo w ms).map Sym2.mk = ms.map Sym2.mk := by
  intro ms
  induction ms with
  | nil => intro w; rfl
  | cons m rest ih =>
    intro w
    rcases m with ⟨p, q⟩
    simp only [balanceGo, List.map_cons, ih, seatDecision_sym2]

theorem balanceGo_length :
    ∀ (ms : List (α × α)) (w : α → Int), (balanceGo w ms).length = ms.length := by
  intro ms
  induction ms with
  | nil => intro w; rfl
  | cons m rest ih =>
    intro w
    rcases m with ⟨p, q⟩
    simp only [balanceGo, List.length_cons, ih]

/-! ### Split lemmas -/

theorem splitGo3_eq (base r : Nat) (ps : List α) :
    splitGo base r 0 3 ps =
      [ps.take (base + if 0 < r then 1 else 0),
       (ps.drop (base + if 0 < r then 1 else 0)).take (base + if 1 < r then 1 else 0),
       ((ps.drop (base + if 0 < r then 1 else 0)).drop (base + if 1 < r then 1 else 0)).take
         (base + if 2 < r then 1 else 0)] := rfl

theorem splitGo4_eq (base r : Nat) (ps : List α) :
    splitGo base r 0 4 ps =
      [ps.take (base + if 0 < r then 1 else 0),
       (ps.drop (base + if 0 < r then 1 else 0)).take (base + if 1 < r then 1 else 0),
       ((ps.drop (base + if 0 < r then 1 else 0)).drop (base + if 1 < r then 1 else 0)).take
         (base + if 2 < r then 1 else 0),
       (((ps.drop (base + if 0 < r then 1 else 0)).drop
           (base + if 1 < r then 1 else 0)).drop (base + if 2 < r then 1 else 0)).take
         (base + if 3 < r then 1 else 0)] := rfl

theorem split_participants_map_length (ps : List α) :
    (split_participants ps).map List.length =
      if ps.length ≤ 6 then [ps.length]
      else if ps.length ≤ 12 then [ps.length / 2, ps.length - ps.length / 2]
      else if ps.length ≤ 18 then
        [ps.length / 3 + (if 0 < ps.length % 3 then 1 else 0),
         ps.length / 3 + (if 1 < ps.length % 3 then 1 else 0),
         ps.length / 3 + (if 2 < ps.length % 3 then 1 else 0)]
      else
        [ps.length / 4 + (if 0 < ps.length % 4 then 1 else 0),
         ps.length / 4 + (if 1 < ps.length % 4 then 1 else 0),
         ps.length / 4 + (if 2 < ps.length % 4 then 1 else 0),
         ps.length / 4 + (if 3 < ps.length % 4 then 1 else 0)] := by
  by_cases h6 : ps.length ≤ 6
  · simp [split_participants, h6]
  by_cases h12 : ps.length ≤ 12
  · simp only [split_participants, if_neg h6, if_pos h12, List.map_cons, List.map_nil,
      List.length_take, List.length_drop, List.cons.injEq, and_true]
    omega
  by_cases h18 : ps.length ≤ 18
  · simp only [split_participants, if_neg h6, if_neg h12, if_pos h18, splitGo3_eq,
      List.map_cons, List.map_nil, List.length_take, List.length_drop, List.drop_drop,
      List.cons.injEq, and_true]
    split_ifs <;> omega
  · simp only [split_participants, if_neg h6, if_neg h12, if_neg h18, splitGo4_eq,
      List.map_cons, List.map_nil, List.length_take, List.length_drop, List.drop_drop,
      List.cons.injEq, and_true]
    split_ifs <;> omega

theorem split_participants_flatten (ps : List α) :
    (split_participants ps).flatten = ps := by
  by_cases h6 : ps.length ≤ 6
  · simp [split_participants, h6]
  by_cases h12 : ps.length ≤ 12
  · simp only [split_participants, if_neg h6, if_pos h12, List.flatten_cons,
      List.flatten_nil, List.append_nil]
    exact List.take_append_drop _ _
  by_cases h18 : ps.length ≤ 18
  · simp only [split_participants, if_neg h6, if_neg h12, if_pos h18, splitGo3_eq,
      List.flatten_cons, List.flatten_nil, List.append_nil]
    rw [← List.take_add, ← List.take_add]
    have hsum : ps.length / 3 + (if 0 < ps.length % 3 then 1 else 0) +
        (ps.length / 3 + (if 1 < ps.length % 3 then 1 else 0) +
          (ps.length / 3 + (if 2 < ps.length % 3 then 1 else 0))) = ps.length := by
      split_ifs <;> omega
    rw [hsum, List.take_length]
  · simp only [split_participants, if_neg h6, if_neg h12, if_neg h18, splitGo4_eq,
      List.flatten_cons, List.flatten_nil, List.append_nil]
    rw [← List.take_add, ← List.take_add, ← List.take_add]
    have hsum : ps.length / 4 + (if 0 < ps.length % 4 then 1 else 0) +
        (ps.length / 4 + (if 1 < ps.length % 4 then 1 else 0) +
          (ps.length / 4 + (if 2 < ps.length % 4 then 1 else 0) +
            (ps.length / 4 + (if 3 < ps.length % 4 then 1 else 0)))) = ps.length := by
      split_ifs <;> omega
    rw [hsum, List.take_length]

/-! ### Indexed description of the seat balancer -/

theorem balanceGo_get (ms : List (α × α)) :
    ∀ (w : α → Int) (i : Nat) (hi : i < ms.length) (hi2 : i < (balanceGo w ms).length),
      (balanceGo w ms).get ⟨i, hi2⟩ =
        seatDecision (seatWeights w (ms.take i))
          (ms.get ⟨i, hi⟩).1 (ms.get ⟨i, hi⟩).2 := by
  induction ms with
  | nil => intro w i hi _; simp at hi
  | cons m rest ih =>
    intro w i hi hi2
    rcases m with ⟨p, q⟩
    cases i with
    | zero => rfl
    | succ j =>
      simp only [balanceGo, List.get_cons_succ, List.take_succ_cons, seatWeights]
      exact ih _ j (by simpa using hi) (by simpa [balanceGo] using hi2)

theorem seatWeights_take_succ (ms : List (α × α)) :
    ∀ (w : α → Int) (i : Nat) (hi : i < ms.length),
      seatWeights w (ms.take (i + 1)) =
        updW (seatWeights w (ms.take i))
          (seatDecision (seatWeights w (ms.take i)) (ms.get ⟨i, hi⟩).1 (ms.get ⟨i, hi⟩).2).1
          (seatDecision (seatWeights w (ms.take i)) (ms.get ⟨i, hi⟩).1 (ms.get ⟨i, hi⟩).2).2 := by
  induction ms with
  | nil => intro w i hi; simp at hi
  | cons m rest ih =>
    intro w i hi
    rcases m with ⟨p, q⟩
    cases i with
    | zero => rfl
    | succ j =>
      simp only [List.take_succ_cons, List.get_cons_succ, seatWeights]
      exact ih _ j (by simpa using hi)

/-! ### Zero-sum property of the seat weights -/

theorem updW_apply (w : α → Int) (f s x : α) :
    updW w f s x = w x + (if x = f then 1 else 0) - (if x = s then 1 else 0) := by
  unfold updW
  split_ifs <;> omega

theorem sum_map_add_sub (parts : List α) (u v w : α → Int) :
    (parts.map (fun x => u x + v x - w x)).sum =
      (parts.map u).sum + (parts.map v).sum - (parts.map w).sum := by
  induction parts with
  | nil => simp
  | cons y ys ih =>
    simp only [List.map_cons, List.sum_cons, ih]
    ring

theorem sum_map_indicator_zero (parts : List α) (f : α) (hf : f ∉ parts) :
    (parts.map (fun x => if x = f then (1 : Int) else 0)).sum = 0 := by
  induction parts with
  | nil => simp
  | cons y ys ih =>
    have hy : y ≠ f := fun hyf => hf (hyf ▸ List.mem_cons_self _ _)
    have hys : f ∉ ys := fun hmem => hf (List.mem_cons_of_mem _ hmem)
    simp [hy, ih hys]

theorem sum_map_indicator (parts : List α) (hnd : parts.Nodup) (f : α) (hf : f ∈ parts) :
    (parts.map (fun x => if x = f then (1 : Int) else 0)).sum = 1 := by
  induction parts with
  | nil => simp at hf
  | cons y ys ih =>
    rcases List.nodup_cons.mp hnd with ⟨hy, hys⟩
    by_cases hyf : y = f
    · subst hyf
      simp [sum_map_indicator_zero ys y hy]
    · have hfys : f ∈ ys := by
        rcases List.mem_cons.mp hf with h1 | h1
        · exact absurd h1.symm hyf
        · exact h1
      simp [hyf, ih hys hfys]

theorem sum_map_updW (parts : List α) (hnd : parts.Nodup) (w : α → Int) (f s : α)
    (hf : f ∈ parts) (hs : s ∈ parts) :
    (parts.map (updW w f s)).sum = (parts.map w).sum := by
  have hcongr : parts.map (updW w f s) =
      parts.map (fun x => w x + (if x = f then 1 else 0) - (if x = s then 1 else 0)) :=
    List.map_congr_left (fun x _ => updW_apply w f s x)
  rw [hcongr, sum_map_add_sub, sum_map_indicator parts hnd f hf,
    sum_map_indicator parts hnd s hs]
  omega

theorem seatDecision_fst_mem (w : α → Int) (p q : α) :
    (seatDecision w p q).1 = p ∨ (seatDecision w p q).1 = q := by
  unfold seatDecision
  split_ifs <;> simp

theorem seatDecision_snd_mem (w : α → Int) (p q : α) :
    (seatDecision w p q).2 = p ∨ (seatDecision w p q).2 = q := by
  unfold seatDecision
  split_ifs <;> simp

theorem seatWeights_sum (parts : List α) (hnd : parts.Nodup) :
    ∀ (ms : List (α × α)) (w : α → Int), (∀ m ∈ ms, m.1 ∈ parts ∧ m.2 ∈ parts) →
      (parts.map (seatWeights w ms)).sum = (parts.map w).sum := by
  intro ms
  induction ms with
  | nil => intro w _; rfl
  | cons m rest ih =>
    intro w hmem
    rcases m with ⟨p, q⟩
    rcases hmem (p, q) (List.mem_cons_self _ _) with ⟨hp, hq⟩
    simp only [seatWeights]
    rw [ih _ (fun x hx => hmem x (List.mem_cons_of_mem _ hx))]
    have h1 : (seatDecision w p q).1 ∈ parts := by
      rcases seatDecision_fst_mem w p q with h | h <;> rw [h] <;> assumption
    have h2 : (seatDecision w p q).2 ∈ parts := by
      rcases seatDecision_snd_mem w p q with h | h <;> rw [h] <;> assumption
    exact sum_map_updW parts hnd w _ _ h1 h2

/-! ### Relabelling: the greedy loop depends only on positions -/

theorem mem_comps_fst (ms : List (α × α)) (p : α × α) (hp : p ∈ ms) : p.1 ∈ comps ms := by
  simp only [comps, List.mem_append, List.mem_map]
  exact Or.inl ⟨p, hp, rfl⟩

theorem mem_comps_snd (ms : List (α × α)) (p : α × α) (hp : p ∈ ms) : p.2 ∈ comps ms := by
  simp only [comps, List.mem_append, List.mem_map]
  exact Or.inr ⟨p, hp, rfl⟩

theorem comps_mem_of_mem (ms : List (α × α)) (x : α) (hx : x ∈ comps ms) :
    ∃ p ∈ ms, x = p.1 ∨ x = p.2 := by
  simp only [comps, List.mem_append, List.mem_map] at hx
  rcases hx with ⟨p, hp, hpx⟩ | ⟨p, hp, hpx⟩
  · exact ⟨p, hp, Or.inl hpx.symm⟩
  · exact ⟨p, hp, Or.inr hpx.symm⟩

theorem comps_subset_cons (c : α × α) (t : List (α × α)) (x : α) (hx : x ∈ comps t) :
    x ∈ comps (c :: t) := by
  obtain ⟨p, hp, hcase⟩ := comps_mem_of_mem t x hx
  rcases hcase with rfl | rfl
  · exact mem_comps_fst _ _ (List.mem_cons_of_mem _ hp)
  · exact mem_comps_snd _ _ (List.mem_cons_of_mem _ hp)

theorem comps_subset_eraseFirst (l : List (α × α)) (b : α × α) (x : α)
    (hx : x ∈ comps (eraseFirst l b)) : x ∈ comps l := by
  obtain ⟨p, hp, hcase⟩ := comps_mem_of_mem _ x hx
  have hpl := eraseFirst_subset l b p hp
  rcases hcase with rfl | rfl
  · exact mem_comps_fst _ _ hpl
  · exact mem_comps_snd _ _ hpl

theorem comps_subset_take (ms : List (α × α)) (i : Nat) (x : α)
    (hx : x ∈ comps (ms.take i)) : x ∈ comps ms := by
  obtain ⟨p, hp, hcase⟩ := comps_mem_of_mem _ x hx
  have hpl := List.take_subset i ms hp
  rcases hcase with rfl | rfl
  · exact mem_comps_fst _ _ hpl
  · exact mem_comps_snd _ _ hpl

theorem foldl_selectStep_map (f : α → β) (mc : α → Nat) (mc' : β → Nat) :
    ∀ (l : List (α × α)) (b? : Option (α × α)) (s? : Option Nat),
      (∀ x ∈ comps l, mc' (f x) = mc x) →
      (∀ b, b? = some b → mc' (f b.1) = mc b.1 ∧ mc' (f b.2) = mc b.2) →
      (l.map (Prod.map f f)).foldl (selectStep mc') (Option.map (Prod.map f f) b?, s?) =
        (Option.map (Prod.map f f) ((l.foldl (selectStep mc) (b?, s?)).1),
         (l.foldl (selectStep mc) (b?, s?)).2) := by
  intro l
  induction l with
  | nil =>
    intro b? s? _ _
    rfl
  | cons c t ih =>
    intro b? s? hc hb
    have hc1 : mc' (f c.1) = mc c.1 := hc c.1 (mem_comps_fst _ _ (List.mem_cons_self _ _))
    have hc2 : mc' (f c.2) = mc c.2 := hc c.2 (mem_comps_snd _ _ (List.mem_cons_self _ _))
    have hct : ∀ x ∈ comps t, mc' (f x) = mc x := fun x hx => hc x (comps_subset_cons c t x hx)
    simp only [List.map_cons, List.foldl_cons]
    rcases s? with _ | s
    · rcases b? with _ | b0 <;>
      · rw [selectStep_none_eq, selectStep_none_eq]
        have hsc : mc' ((Prod.map f f c).1) + mc' ((Prod.map f f c).2) = mc c.1 + mc c.2 := by
          simp [hc1, hc2]
        rw [hsc]
        exact ih (some c) (some (mc c.1 + mc c.2)) hct
          (fun b hb' => by cases hb'; exact ⟨hc1, hc2⟩)
    · rcases b? with _ | b
      · rw [show Option.map (Prod.map f f) (none : Option (α × α)) = none from rfl,
          selectStep_none_some, selectStep_none_some]
        have hsc : mc' ((Prod.map f f c).1) + mc' ((Prod.map f f c).2) = mc c.1 + mc c.2 := by
          simp [hc1, hc2]
        rw [hsc]
        by_cases h1 : mc c.1 + mc c.2 < s
        · rw [if_pos h1, if_pos h1]
          exact ih (some c) (some (mc c.1 + mc c.2)) hct
            (fun b hb' => by cases hb'; exact ⟨hc1, hc2⟩)
        · rw [if_neg h1, if_neg h1]
          by_cases h2 : mc c.1 + mc c.2 = s
          · rw [if_pos h2, if_pos h2]
            exact ih none (some s) hct (fun b hb' => by cases hb')
          · rw [if_neg h2, if_neg h2]
            exact ih none (some s) hct (fun b hb' => by cases hb')
      · obtain ⟨hb1, hb2⟩ := hb b rfl
        rw [show Option.map (Prod.map f f) (some b) = some (Prod.map f f b) from rfl,
          selectStep_some_some, selectStep_some_some]
        have e1 : mc' ((Prod.map f f c).1) + mc' ((Prod.map f f c).2) = mc c.1 + mc c.2 := by
          simp [hc1, hc2]
        have e2 : min (mc' ((Prod.map f f c).1)) (mc' ((Prod.map f f c).2)) =
            min (mc c.1) (mc c.2) := by
          simp [hc1, hc2]
        have e3 : min (mc' ((Prod.map f f b).1)) (mc' ((Prod.map f f b).2)) =
            min (mc b.1) (mc b.2) := by
          simp [hb1, hb2]
        rw [e1, e2, e3]
        by_cases h1 : mc c.1 + mc c.2 < s
        · rw [if_pos h1, if_pos h1]
          exact ih (some c) (some (mc c.1 + mc c.2)) hct
            (fun b' hb' => by cases hb'; exact ⟨hc1, hc2⟩)
        · rw [if_neg h1, if_neg h1]
          by_cases h2 : mc c.1 + mc c.2 = s
          · rw [if_pos h2, if_pos h2]
            by_cases h3 : min (mc c.1) (mc c.2) < min (mc b.1) (mc b.2)
            · rw [if_pos h3, if_pos h3]
              exact ih (some c) (some s) hct
                (fun b' hb' => by cases hb'; exact ⟨hc1, hc2⟩)
            · rw [if_neg h3, if_neg h3]
              exact ih (some b) (some s) hct
                (fun b' hb' => by cases hb'; exact ⟨hb1, hb2⟩)
          · rw [if_neg h2, if_neg h2]
            exact ih (some b) (some s) hct
              (fun b' hb' => by cases hb'; exact ⟨hb1, hb2⟩)

theorem selectBest_map (f : α → β) (mc : α → Nat) (mc' : β → Nat) (l : List (α × α))
    (hc : ∀ x ∈ comps l, mc' (f x) = mc x) :
    selectBest mc' (l.map (Prod.map f f)) = Option.map (Prod.map f f) (selectBest mc l) := by
  have h := foldl_selectStep_map f mc mc' l none none hc (fun b hb => by cases hb)
  exact congrArg Prod.fst h

theorem eraseFirst_map (f : α → β) (l : List (α × α)) (b : α × α)
    (hg : ∀ c ∈ l, Prod.map f f c = Prod.map f f b → c = b) :
    eraseFirst (l.map (Prod.map f f)) (Prod.map f f b) =
      (eraseFirst l b).map (Prod.map f f) := by
  induction l with
  | nil => rfl
  | cons x xs ih =>
    by_cases hx : x = b
    · subst hx
      simp [eraseFirst]
    · have hgx : ¬ Prod.map f f x = Prod.map f f b :=
        fun h => hx (hg x (List.mem_cons_self _ _) h)
      simp only [List.map_cons, eraseFirst, if_neg hx, if_neg hgx]
      rw [ih (fun c hcm h => hg c (List.mem_cons_of_mem _ hcm) h)]

theorem bumpLoad_map_compat (f : α → β) (mc : α → Nat) (mc' : β → Nat) (b : α × α) (x : α)
    (hx : mc' (f x) = mc x)
    (h1 : f x = f b.1 ↔ x = b.1) (h2 : f x = f b.2 ↔ x = b.2) :
    bumpLoad mc' (Prod.map f f b) (f x) = bumpLoad mc b x := by
  simp only [bumpLoad, bump1, Prod.map_fst, Prod.map_snd]
  by_cases hxb2 : x = b.2
  · rw [if_pos (h2.mpr hxb2), if_pos hxb2]
    by_cases hxb1 : x = b.1
    · rw [if_pos (h1.mpr hxb1), if_pos hxb1, hx]
    · rw [if_neg (fun h => hxb1 (h1.mp h)), if_neg hxb1, hx]
  · rw [if_neg (fun h => hxb2 (h2.mp h)), if_neg hxb2]
    by_cases hxb1 : x = b.1
    · rw [if_pos (h1.mpr hxb1), if_pos hxb1, hx]
    · rw [if_neg (fun h => hxb1 (h1.mp h)), if_neg hxb1, hx]

theorem greedyAux_map (f : α → β) :
    ∀ (fuel : Nat) (mc : α → Nat) (mc' : β → Nat) (rem : List (α × α)),
      (∀ x ∈ comps rem, mc' (f x) = mc x) →
      (∀ x ∈ comps rem, ∀ y ∈ comps rem, f x = f y → x = y) →
      greedyAux mc' fuel (rem.map (Prod.map f f)) =
        (greedyAux mc fuel rem).map (Prod.map f f) := by
  intro fuel
  induction fuel with
  | zero => intro mc mc' rem _ _; rfl
  | succ fl ih =>
    intro mc mc' rem hc hinj
    cases rem with
    | nil => rfl
    | cons c rest =>
      have hsb : selectBest mc' ((c :: rest).map (Prod.map f f)) =
          Option.map (Prod.map f f) (selectBest mc (c :: rest)) :=
        selectBest_map f mc mc' (c :: rest) hc
      simp only [List.map_cons] at hsb ⊢
      simp only [greedyAux]
      have hbmem := getD_selectBest_mem mc c rest
      have hgetD : (selectBest mc' (Prod.map f f c :: rest.map (Prod.map f f))).getD
          (Prod.map f f c) = Prod.map f f ((selectBest mc (c :: rest)).getD c) := by
        rw [hsb]
        cases selectBest mc (c :: rest) <;> rfl
      rw [hgetD]
      have hb1 : ((selectBest mc (c :: rest)).getD c).1 ∈ comps (c :: rest) :=
        mem_comps_fst _ _ hbmem
      have hb2 : ((selectBest mc (c :: rest)).getD c).2 ∈ comps (c :: rest) :=
        mem_comps_snd _ _ hbmem
      have hgsame : ∀ p ∈ c :: rest,
          Prod.map f f p = Prod.map f f ((selectBest mc (c :: rest)).getD c) →
            p = (selectBest mc (c :: rest)).getD c := by
        intro p hp hfp
        have hp1 : p.1 ∈ comps (c :: rest) := mem_comps_fst _ _ hp
        have hp2 : p.2 ∈ comps (c :: rest) := mem_comps_snd _ _ hp
        have e1 : f p.1 = f ((selectBest mc (c :: rest)).getD c).1 := by
          have := congrArg Prod.fst hfp
          simpa [Prod.map_fst] using this
        have e2 : f p.2 = f ((selectBest mc (c :: rest)).getD c).2 := by
          have := congrArg Prod.snd hfp
          simpa [Prod.map_snd] using this
        have g1 := hinj p.1 hp1 _ hb1 e1
        have g2 := hinj p.2 hp2 _ hb2 e2
        exact Prod.ext g1 g2
      have herase : eraseFirst (Prod.map f f c :: rest.map (Prod.map f f))
          (Prod.map f f ((selectBest mc (c :: rest)).getD c)) =
            (eraseFirst (c :: rest) ((selectBest mc (c :: rest)).getD c)).map
              (Prod.map f f) := by
        have := eraseFirst_map f (c :: rest) ((selectBest mc (c :: rest)).getD c) hgsame
        simpa using this
      rw [herase]
      congr 1
      apply ih
      · intro x hx
        have hxin : x ∈ comps (c :: rest) := comps_subset_eraseFirst _ _ x hx
        exact bumpLoad_map_compat f mc mc' _ x (hc x hxin)
          ⟨fun h => hinj _ hxin _ hb1 h, fun h => h ▸ rfl⟩
          ⟨fun h => hinj _ hxin _ hb2 h, fun h => h ▸ rfl⟩
      · intro x hx y hy hxy
        exact hinj x (comps_subset_eraseFirst _ _ x hx) y
          (comps_subset_eraseFirst _ _ y hy) hxy

theorem greedyGo_map (f : α → β) (mc : α → Nat) (mc' : β → Nat) (rem : List (α × α))
    (hc : ∀ x ∈ comps rem, mc' (f x) = mc x)
    (hinj : ∀ x ∈ comps rem, ∀ y ∈ comps rem, f x = f y → x = y) :
    greedyGo mc' (rem.map (Prod.map f f)) = (greedyGo mc rem).map (Prod.map f f) := by
  unfold greedyGo
  rw [List.length_map]
  exact greedyAux_map f rem.length mc mc' rem hc hinj

theorem matchLoads_map (f : α → β) :
    ∀ (ms : List (α × α)) (mc : α → Nat) (mc' : β → Nat) (x : α),
      (∀ y ∈ x :: comps ms, mc' (f y) = mc y) →
      (∀ y ∈ x :: comps ms, ∀ z ∈ x :: comps ms, f y = f z → y = z) →
      matchLoads mc' (ms.map (Prod.map f f)) (f x) = matchLoads mc ms x := by
  intro ms
  induction ms with
  | nil =>
    intro mc mc' x hc _
    exact hc x (List.mem_cons_self _ _)
  | cons c t ih =>
    intro mc mc' x hc hinj
    have lift : ∀ y, y ∈ x :: comps t → y ∈ x :: comps (c :: t) := by
      intro y hy
      rcases List.mem_cons.mp hy with rfl | hy'
      · exact List.mem_cons_self _ _
      · exact List.mem_cons_of_mem _ (comps_subset_cons c t y hy')
    have hcx1 : c.1 ∈ x :: comps (c :: t) :=
      List.mem_cons_of_mem _ (mem_comps_fst _ _ (List.mem_cons_self _ _))
    have hcx2 : c.2 ∈ x :: comps (c :: t) :=
      List.mem_cons_of_mem _ (mem_comps_snd _ _ (List.mem_cons_self _ _))
    simp only [List.map_cons, matchLoads, List.foldl_cons]
    apply ih (bumpLoad mc c) (bumpLoad mc' (Prod.map f f c)) x
    · intro y hy
      have hy' := lift y hy
      exact bumpLoad_map_compat f mc mc' c y (hc y hy')
        ⟨fun h => hinj _ hy' _ hcx1 h, fun h => h ▸ rfl⟩
        ⟨fun h => hinj _ hy' _ hcx2 h, fun h => h ▸ rfl⟩
    · intro y hy z hz hyz
      exact hinj y (lift y hy) z (lift z hz) hyz

theorem C2_base (n : Nat) (hn : n ≤ 5) (i x y : Nat) (hx : x < n) (hy : y < n) :
    matchLoads (fun _ => 0) ((greedyGo (fun _ => 0) (combinations2 (List.range n))).take i) x ≤
      matchLoads (fun _ => 0) ((greedyGo (fun _ => 0) (combinations2 (List.range n))).take i) y
        + 1 := by
  have hdec : ∀ i' < 11, ∀ x' < n, ∀ y' < n,
      matchLoads (fun _ => 0)
          ((greedyGo (fun _ => 0) (combinations2 (List.range n))).take i') x' ≤
        matchLoads (fun _ => 0)
          ((greedyGo (fun _ => 0) (combinations2 (List.range n))).take i') y' + 1 := by
    interval_cases n <;> decide
  have hlen : (greedyGo (fun _ => 0) (combinations2 (List.range n))).length ≤ 10 := by
    rw [(greedyGo_perm _ _).length_eq, combinations2_length, List.length_range]
    interval_cases n <;> decide
  rcases le_or_lt i (greedyGo (fun _ => 0) (combinations2 (List.range n))).length with hi | hi
  · exact hdec i (by omega) x hx y hy
  · rw [List.take_of_length_le (le_of_lt hi)]
    rw [← List.take_of_length_le hlen]
    exact hdec 10 (by omega) x hx y hy

/-! ### Claim theorems -/

/-- C7: for every competitor list of size at least 1, the concatenation of the
tables returned by `split_participants` reproduces the input exactly, every
table is non-empty, and any two table sizes differ by at most 1. -/
theorem C7_split_participants_contract (ps : List α) (h : 1 ≤ ps.length) :
    (split_participants ps).flatten = ps ∧
    (∀ t ∈ split_participants ps, t ≠ []) ∧
    ∀ t1 ∈ split_participants ps, ∀ t2 ∈ split_participants ps,
      t1.length ≤ t2.length + 1 := by
  have hpos : ∀ t ∈ split_participants ps, 0 < t.length := by
    intro t ht
    have hmem : t.length ∈ (split_participants ps).map List.length :=
      List.mem_map_of_mem _ ht
    rw [split_participants_map_length] at hmem
    split_ifs at hmem <;>
      simp only [List.mem_cons, List.mem_singleton, List.not_mem_nil, or_false] at hmem <;>
      omega
  refine ⟨split_participants_flatten ps, fun t ht => List.length_pos.mp (hpos t ht), ?_⟩
  intro t1 h1 t2 h2
  have m1 : t1.length ∈ (split_participants ps).map List.length := List.mem_map_of_mem _ h1
  have m2 : t2.length ∈ (split_participants ps).map List.length := List.mem_map_of_mem _ h2
  rw [split_participants_map_length] at m1 m2
  split_ifs at m1 m2 <;>
    simp only [List.mem_cons, List.mem_singleton, List.not_mem_nil, or_false] at m1 m2 <;>
    omega

theorem C7_split_participants_contract_witness :
    (split_participants (generate_participants 9)).flatten = generate_participants 9 ∧
    (∀ t ∈ split_participants (generate_participants 9), t ≠ []) ∧
    ∀ t1 ∈ split_participants (generate_participants 9),
      ∀ t2 ∈ split_participants (generate_participants 9), t1.length ≤ t2.length + 1 :=
  C7_split_participants_contract (generate_participants 9) (by decide)

/-- C1 (counterexample): for the 9-competitor list the claimed table sizes
`[5, 4]` (remainder to the first table) are wrong: the code splits 7-12
competitors as `[n / 2, n - n / 2]`, i.e. `[4, 5]` for `n = 9`. -/
theorem C1_counterexample_nine :
    ¬ ((split_participants (generate_participants 9)).map List.length = [5, 4]) := by
  decide

/-- C1 (amended): for 13-24 competitors the first `n % k` tables do receive
`n / k + 1` members as claimed (`k` = 3 or 4), but for 7-12 competitors the
two tables have sizes `n / 2` and `n - n / 2`: when `n` is odd the extra
member goes to the second table, so `n = 9` yields sizes 4 then 5. -/
theorem C1_split_sizes_amended (ps : List α) (h7 : 7 ≤ ps.length) (h24 : ps.length ≤ 24) :
    (ps.length ≤ 12 →
      (split_participants ps).map List.length =
        [ps.length / 2, ps.length - ps.length / 2]) ∧
    (13 ≤ ps.length → ps.length ≤ 18 →
      (split_participants ps).map List.length =
        [ps.length / 3 + (if 0 < ps.length % 3 then 1 else 0),
         ps.length / 3 + (if 1 < ps.length % 3 then 1 else 0),
         ps.length / 3 + (if 2 < ps.length % 3 then 1 else 0)]) ∧
    (19 ≤ ps.length →
      (split_participants ps).map List.length =
        [ps.length / 4 + (if 0 < ps.length % 4 then 1 else 0),
         ps.length / 4 + (if 1 < ps.length % 4 then 1 else 0),
         ps.length / 4 + (if 2 < ps.length % 4 then 1 else 0),
         ps.length / 4 + (if 3 < ps.length % 4 then 1 else 0)]) := by
  rw [split_participants_map_length]
  refine ⟨?_, ?_, ?_⟩
  · intro h12
    rw [if_neg (by omega), if_pos h12]
  · intro h13 h18
    rw [if_neg (by omega), if_neg (by omega), if_pos h18]
  · intro h19
    rw [if_neg (by omega), if_neg (by omega), if_neg (by omega)]

theorem C1_split_sizes_amended_witness :
    ((generate_participants 9).length ≤ 12 →
      (split_participants (generate_participants 9)).map List.length =
        [(generate_participants 9).length / 2,
         (generate_participants 9).length - (generate_participants 9).length / 2]) ∧
    (13 ≤ (generate_participants 9).length → (generate_participants 9).length ≤ 18 →
      (split_participants (generate_participants 9)).map List.length =
        [(generate_participants 9).length / 3 +
           (if 0 < (generate_participants 9).length % 3 then 1 else 0),
         (generate_participants 9).length / 3 +
           (if 1 < (generate_participants 9).length % 3 then 1 else 0),
         (generate_participants 9).length / 3 +
           (if 2 < (generate_participants 9).length % 3 then 1 else 0)]) ∧
    (19 ≤ (generate_participants 9).length →
      (split_participants (generate_participants 9)).map List.length =
        [(generate_participants 9).length / 4 +
           (if 0 < (generate_participants 9).length % 4 then 1 else 0),
         (generate_participants 9).length / 4 +
           (if 1 < (generate_participants 9).length % 4 then 1 else 0),
         (generate_participants 9).length / 4 +
           (if 2 < (generate_participants 9).length % 4 then 1 else 0),
         (generate_participants 9).length / 4 +
           (if 3 < (generate_participants 9).length % 4 then 1 else 0)]) :=
  C1_split_sizes_amended (generate_participants 9) (by decide) (by decide)

/-- C3: for every list of at least 2 distinct competitors, `generate_matches`
returns exactly `n * (n - 1) / 2` matches, and the unordered pairs underlying
them are a permutation of the full combination list — without duplicates and
covering every 2-combination of the competitors. -/
theorem C3_generate_matches_complete (ps : List α) (hnd : ps.Nodup) (h2 : 2 ≤ ps.length) :
    (generate_matches ps).length = ps.length * (ps.length - 1) / 2 ∧
    ((generate_matches ps).map Sym2.mk).Perm ((combinations2 ps).map Sym2.mk) ∧
    ((generate_matches ps).map Sym2.mk).Nodup ∧
    ∀ a ∈ ps, ∀ b ∈ ps, a ≠ b → Sym2.mk (a, b) ∈ (generate_matches ps).map Sym2.mk := by
  have hperm : (greedyGo (fun _ => 0) (combinations2 ps)).Perm (combinations2 ps) :=
    greedyGo_perm _ _
  have hsym : (generate_matches ps).map Sym2.mk =
      (greedyGo (fun _ => 0) (combinations2 ps)).map Sym2.mk := by
    simp only [generate_matches, apply_player_balance]
    exact balanceGo_sym2 _ _
  have hpermSym : ((generate_matches ps).map Sym2.mk).Perm
      ((combinations2 ps).map Sym2.mk) := by
    rw [hsym]
    exact hperm.map _
  refine ⟨?_, hpermSym, ?_, ?_⟩
  · have hlen1 : (generate_matches ps).length =
        (greedyGo (fun _ => 0) (combinations2 ps)).length := by
      simp only [generate_matches, apply_player_balance]
      exact balanceGo_length _ _
    rw [hlen1, hperm.length_eq, combinations2_length, Nat.choose_two_right]
  · exact hpermSym.nodup_iff.mpr (combinations2_sym2_nodup ps hnd)
  · intro a ha b hb hab
    exact hpermSym.mem_iff.mpr (combinations2_sym2_complete ps a b ha hb hab)

theorem C3_generate_matches_complete_witness :
    (generate_matches (generate_participants 3)).length =
      (generate_participants 3).length * ((generate_participants 3).length - 1) / 2 ∧
    ((generate_matches (generate_participants 3)).map Sym2.mk).Perm
      ((combinations2 (generate_participants 3)).map Sym2.mk) ∧
    ((generate_matches (generate_participants 3)).map Sym2.mk).Nodup ∧
    ∀ a ∈ generate_participants 3, ∀ b ∈ generate_participants 3, a ≠ b →
      Sym2.mk (a, b) ∈ (generate_matches (generate_participants 3)).map Sym2.mk :=
  C3_generate_matches_complete (generate_participants 3) (by decide) (by decide)

/-- C4: at every iteration of the greedy loop, the selected pair is one of the
remaining pairs with minimal load sum; among pairs tied on that sum it has
minimal individual minimum load; among pairs still tied it is the earliest in
the remaining list (which preserves the combination order); and the loop then
emits it and increments both members' loads. -/
theorem C4_greedy_selection (mc : α → Nat) (rem : List (α × α)) (h : rem ≠ []) :
    ∃ b, selectBest mc rem = some b ∧ b ∈ rem ∧
      (∀ c ∈ rem, pairScore mc b ≤ pairScore mc c) ∧
      (∀ c ∈ rem, pairScore mc c = pairScore mc b → pairMinLoad mc b ≤ pairMinLoad mc c) ∧
      (∃ l1 l2, rem = l1 ++ b :: l2 ∧
        ∀ c ∈ l1, pairScore mc b < pairScore mc c ∨
          (pairScore mc c = pairScore mc b ∧ pairMinLoad mc b < pairMinLoad mc c)) ∧
      greedyGo mc rem = b :: greedyGo (bumpLoad mc b) (eraseFirst rem b) := by
  rcases selectBest_spec mc rem h with ⟨b, hb, hdec, hall⟩
  have hmem : b ∈ rem := selectBest_mem mc rem b hb
  refine ⟨b, hb, hmem, ?_, ?_, hdec, ?_⟩
  · intro c hc
    rcases hall c hc with h1 | ⟨h1, _⟩
    · exact le_of_lt h1
    · exact le_of_eq h1.symm
  · intro c hc hsc
    rcases hall c hc with h1 | ⟨_, hm⟩
    · omega
    · exact hm
  · cases rem with
    | nil => exact absurd rfl h
    | cons c rest =>
      rw [greedyGo_cons, hb]
      simp only [Option.getD_some]

theorem C4_greedy_selection_witness :
    ∃ b, selectBest (fun _ => 0) (combinations2 (generate_participants 3)) = some b ∧
      b ∈ combinations2 (generate_participants 3) ∧
      (∀ c ∈ combinations2 (generate_participants 3),
        pairScore (fun _ => 0) b ≤ pairScore (fun _ => 0) c) ∧
      (∀ c ∈ combinations2 (generate_participants 3),
        pairScore (fun _ => 0) c = pairScore (fun _ => 0) b →
          pairMinLoad (fun _ => 0) b ≤ pairMinLoad (fun _ => 0) c) ∧
      (∃ l1 l2, combinations2 (generate_participants 3) = l1 ++ b :: l2 ∧
        ∀ c ∈ l1, pairScore (fun _ => 0) b < pairScore (fun _ => 0) c ∨
          (pairScore (fun _ => 0) c = pairScore (fun _ => 0) b ∧
            pairMinLoad (fun _ => 0) b < pairMinLoad (fun _ => 0) c)) ∧
      greedyGo (fun _ => 0) (combinations2 (generate_participants 3)) =
        b :: greedyGo (bumpLoad (fun _ => 0) b)
          (eraseFirst (combinations2 (generate_participants 3)) b) :=
  C4_greedy_selection (fun _ => 0) (combinations2 (generate_participants 3)) (by decide)

/-- C9: whenever the remaining combination list is non-empty, the scan sets
`best_match` to some pair (the initial infinite score is beaten by any finite
score), so the fallback branch taking `remaining_combinations[0]` when
`best_match` is unset is unreachable. -/
theorem C9_fallback_unreachable (mc : α → Nat) (rem : List (α × α)) (h : rem ≠ []) :
    (selectBest mc rem).isSome = true := by
  rcases selectBest_spec mc rem h with ⟨b, hb, _, _⟩
  rw [hb]
  rfl

theorem C9_fallback_unreachable_witness :
    (selectBest (fun _ => 0) (combinations2 (generate_participants 3))).isSome = true :=
  C9_fallback_unreachable (fun _ => 0) (combinations2 (generate_participants 3)) (by decide)

/-- C8: the `main` boundary rejects every count below 3, every count above 24
and every non-numeric input before any core function runs, each case with its
own distinct message. -/
theorem C8_boundary_validation :
    (∀ c : Int, c < 3 → mainRun (some c) = MainOutcome.rejected msgTooFew) ∧
    (∀ c : Int, c > 24 → mainRun (some c) = MainOutcome.rejected msgTooMany) ∧
    mainRun none = MainOutcome.rejected msgNotNumber ∧
    msgTooFew ≠ msgTooMany ∧ msgTooFew ≠ msgNotNumber ∧ msgTooMany ≠ msgNotNumber := by
  refine ⟨?_, ?_, rfl, by decide, by decide, by decide⟩
  · intro c hc
    simp only [mainRun, if_pos hc]
  · intro c hc
    simp only [mainRun]
    rw [if_neg (by omega), if_pos hc]

theorem C8_boundary_validation_witness :
    mainRun (some (-5)) = MainOutcome.rejected msgTooFew ∧
    mainRun (some 25) = MainOutcome.rejected msgTooMany :=
  ⟨C8_boundary_validation.1 (-5) (by decide), C8_boundary_validation.2.1 25 (by decide)⟩

/-- C6: the concrete 4-competitor scenario: 6 matches covering each unordered
pair exactly once, match loads within 1 of each other after every greedy step,
and no competitor in the first seat more than twice in the balanced output. -/
theorem C6_four_player_scenario :
    (generate_matches (generate_participants 4)).length = 6 ∧
    ((generate_matches (generate_participants 4)).map Sym2.mk).Nodup ∧
    Sym2.mk ('A', 'B') ∈ (generate_matches (generate_participants 4)).map Sym2.mk ∧
    Sym2.mk ('A', 'C') ∈ (generate_matches (generate_participants 4)).map Sym2.mk ∧
    Sym2.mk ('A', 'D') ∈ (generate_matches (generate_participants 4)).map Sym2.mk ∧
    Sym2.mk ('B', 'C') ∈ (generate_matches (generate_participants 4)).map Sym2.mk ∧
    Sym2.mk ('B', 'D') ∈ (generate_matches (generate_participants 4)).map Sym2.mk ∧
    Sym2.mk ('C', 'D') ∈ (generate_matches (generate_participants 4)).map Sym2.mk ∧
    (∀ i < 7, ∀ a ∈ generate_participants 4, ∀ b ∈ generate_participants 4,
      matchLoads (fun _ => 0)
          ((greedyGo (fun _ => 0) (combinations2 (generate_participants 4))).take i) a ≤
        matchLoads (fun _ => 0)
          ((greedyGo (fun _ => 0) (combinations2 (generate_participants 4))).take i) b + 1) ∧
    ∀ p ∈ generate_participants 4,
      ((generate_matches (generate_participants 4)).map Prod.fst).count p ≤ 2 := by
  decide

theorem apply_player_balance_get (ms : List (α × α)) (i : Nat) (hi : i < ms.length)
    (hi2 : i < (apply_player_balance ms).length) :
    (apply_player_balance ms).get ⟨i, hi2⟩ =
      seatDecision (seatWeights (fun _ => 0) (ms.take i))
        (ms.get ⟨i, hi⟩).1 (ms.get ⟨i, hi⟩).2 :=
  balanceGo_get ms (fun _ => 0) i hi hi2

/-- C5: `apply_player_balance` preserves length and pair order; for the `i`-th
pair `(p, q)`, with the running seat weights started at 0, `p` is seated first
when `weight p < weight q`, `q` first when `weight p > weight q`, and the
original order `(p, q)` is kept on ties; afterwards the first-seated weight is
incremented and the second-seated weight decremented. -/
theorem C5_apply_player_balance_spec (ms : List (α × α)) (i : Nat)
    (hi : i < ms.length) (hi2 : i < (apply_player_balance ms).length) :
    (apply_player_balance ms).length = ms.length ∧
    (seatWeights (fun _ => 0) (ms.take i) (ms.get ⟨i, hi⟩).1 <
        seatWeights (fun _ => 0) (ms.take i) (ms.get ⟨i, hi⟩).2 →
      (apply_player_balance ms).get ⟨i, hi2⟩ =
        ((ms.get ⟨i, hi⟩).1, (ms.get ⟨i, hi⟩).2)) ∧
    (seatWeights (fun _ => 0) (ms.take i) (ms.get ⟨i, hi⟩).2 <
        seatWeights (fun _ => 0) (ms.take i) (ms.get ⟨i, hi⟩).1 →
      (apply_player_balance ms).get ⟨i, hi2⟩ =
        ((ms.get ⟨i, hi⟩).2, (ms.get ⟨i, hi⟩).1)) ∧
    (seatWeights (fun _ => 0) (ms.take i) (ms.get ⟨i, hi⟩).1 =
        seatWeights (fun _ => 0) (ms.take i) (ms.get ⟨i, hi⟩).2 →
      (apply_player_balance ms).get ⟨i, hi2⟩ =
        ((ms.get ⟨i, hi⟩).1, (ms.get ⟨i, hi⟩).2)) ∧
    seatWeights (fun _ => 0) (ms.take (i + 1)) =
      updW (seatWeights (fun _ => 0) (ms.take i))
        ((apply_player_balance ms).get ⟨i, hi2⟩).1
        ((apply_player_balance ms).get ⟨i, hi2⟩).2 := by
  have hget := apply_player_balance_get ms i hi hi2
  refine ⟨balanceGo_length ms _, ?_, ?_, ?_, ?_⟩
  · intro hlt
    rw [hget]
    unfold seatDecision
    rw [if_pos hlt]
  · intro hgt
    rw [hget]
    unfold seatDecision
    rw [if_neg (lt_asymm hgt), if_pos hgt]
  · intro heq
    rw [hget]
    unfold seatDecision
    rw [if_neg (heq ▸ lt_irrefl _), if_neg (heq ▸ lt_irrefl _)]
  · rw [hget]
    exact seatWeights_take_succ ms (fun _ => 0) i hi

theorem C5_apply_player_balance_spec_witness :
    (apply_player_balance [(('A' : Char), 'B')]).length = 1 ∧
    ((0 : Int) < 0 →
      (apply_player_balance [(('A' : Char), 'B')]).get ⟨0, by decide⟩ = ('A', 'B')) ∧
    ((0 : Int) < 0 →
      (apply_player_balance [(('A' : Char), 'B')]).get ⟨0, by decide⟩ = ('B', 'A')) ∧
    ((0 : Int) = 0 →
      (apply_player_balance [(('A' : Char), 'B')]).get ⟨0, by decide⟩ = ('A', 'B')) ∧
    seatWeights (fun _ => 0) ([(('A' : Char), 'B')].take 1) =
      updW (fun _ => 0)
        ((apply_player_balance [(('A' : Char), 'B')]).get ⟨0, by decide⟩).1
        ((apply_player_balance [(('A' : Char), 'B')]).get ⟨0, by decide⟩).2 :=
  C5_apply_player_balance_spec [(('A' : Char), 'B')] 0 (by decide) (by decide)

/-- C10: at every step (and at completion) of `apply_player_balance`, the seat
weights summed over the distinct participants of the table are 0, provided
every processed pair draws its members from the participant list. -/
theorem C10_seat_weights_zero_sum (parts : List α) (ms : List (α × α)) (hnd : parts.Nodup)
    (hmem : ∀ m ∈ ms, m.1 ∈ parts ∧ m.2 ∈ parts) (i : Nat) :
    (parts.map (seatWeights (fun _ => 0) (ms.take i))).sum = 0 := by
  have h := seatWeights_sum parts hnd (ms.take i) (fun _ => 0)
    (fun m hm => hmem m (List.take_subset _ _ hm))
  rw [h]
  simp

theorem C10_seat_weights_zero_sum_witness :
    ((generate_participants 3).map
      (seatWeights (fun _ => 0) ([(('A' : Char), 'B'), ('B', 'C')].take 1))).sum = 0 :=
  C10_seat_weights_zero_sum (generate_participants 3) [(('A' : Char), 'B'), ('B', 'C')]
    (by decide) (by decide) 1

/-- C2 (counterexample): the claimed 0-or-1 prefix bound fails already for the
6-competitor table `A..F` produced by the program itself: after the first 6
greedily ordered pairs the loads are `A ↦ 3` and `F ↦ 1`, a spread of 2. -/
theorem C2_counterexample_six :
    ¬ (∀ i, ∀ a ∈ generate_participants 6, ∀ b ∈ generate_participants 6,
        matchLoads (fun _ => 0)
            ((greedyGo (fun _ => 0) (combinations2 (generate_participants 6))).take i) a ≤
          matchLoads (fun _ => 0)
            ((greedyGo (fun _ => 0) (combinations2 (generate_participants 6))).take i) b
            + 1) := by
  intro h
  exact absurd (h 6 'A' (by decide) 'F' (by decide)) (by decide)

/-- C2 (amended): for every table of at most 5 distinct competitors, at every
prefix of the ordered pair sequence produced by the greedy pairing loop
(before seat balancing), the maximum match load minus the minimum match load
across the table's competitors is 0 or 1.  (From 6 competitors on the spread
can reach 2.) -/
theorem C2_prefix_load_balance_amended (ps : List α) (hnd : ps.Nodup)
    (hlen : ps.length ≤ 5) (i : Nat) (a : α) (ha : a ∈ ps) (b : α) (hb : b ∈ ps) :
    matchLoads (fun _ => 0) ((greedyGo (fun _ => 0) (combinations2 ps)).take i) a ≤
      matchLoads (fun _ => 0) ((greedyGo (fun _ => 0) (combinations2 ps)).take i) b + 1 := by
  obtain ⟨⟨ja, hja⟩, hgeta⟩ := List.mem_iff_get.mp ha
  obtain ⟨⟨jb, hjb⟩, hgetb⟩ := List.mem_iff_get.mp hb
  have hinj : ∀ x, x < ps.length → ∀ y, y < ps.length → ps.getD x a = ps.getD y a → x = y := by
    intro x hx y hy hxy
    rw [List.getD_eq_getElem ps a hx, List.getD_eq_getElem ps a hy] at hxy
    have hfun := List.nodup_iff_injective_get.mp hnd
    have hfin : (⟨x, hx⟩ : Fin ps.length) = ⟨y, hy⟩ :=
      hfun (by simpa [List.get_eq_getElem] using hxy)
    simpa using hfin
  have hps : ps = (List.range ps.length).map (fun j => ps.getD j a) := by
    apply List.ext_getElem
    · simp
    · intro j h1 h2
      simp only [List.getElem_map, List.getElem_range]
      rw [List.getD_eq_getElem ps a (by simpa using h2)]
  have key : ∀ j, j < ps.length →
      matchLoads (fun _ => 0) ((greedyGo (fun _ => 0) (combinations2 ps)).take i)
          (ps.getD j a) =
        matchLoads (fun _ => 0)
          ((greedyGo (fun _ => 0) (combinations2 (List.range ps.length))).take i) j := by
    intro j hj
    have hcomb : combinations2 ps =
        (combinations2 (List.range ps.length)).map
          (Prod.map (fun j' => ps.getD j' a) (fun j' => ps.getD j' a)) := by
      conv_lhs => rw [hps]
      exact combinations2_map (fun j' => ps.getD j' a) (List.range ps.length)
    have hcompsC : ∀ x ∈ comps (combinations2 (List.range ps.length)), x < ps.length := by
      intro x hx
      obtain ⟨p, hp, hcase⟩ := comps_mem_of_mem _ x hx
      rcases combinations2_mem_components _ p hp with ⟨h1, h2⟩
      rcases hcase with rfl | rfl
      · exact List.mem_range.mp h1
      · exact List.mem_range.mp h2
    have hgreedy : greedyGo (fun _ => 0) (combinations2 ps) =
        (greedyGo (fun _ => 0) (combinations2 (List.range ps.length))).map
          (Prod.map (fun j' => ps.getD j' a) (fun j' => ps.getD j' a)) := by
      rw [hcomb]
      exact greedyGo_map (fun j' => ps.getD j' a) (fun _ => 0) (fun _ => 0) _
        (fun x _ => rfl)
        (fun x hx y hy hxy => hinj x (hcompsC x hx) y (hcompsC y hy) hxy)
    rw [hgreedy, ← List.map_take]
    have hcompsG : ∀ x ∈ comps
        ((greedyGo (fun _ => 0) (combinations2 (List.range ps.length))).take i),
        x < ps.length := by
      intro x hx
      have hx1 := comps_subset_take _ i x hx
      obtain ⟨p, hp, hcase⟩ := comps_mem_of_mem _ x hx1
      have hpmem : p ∈ combinations2 (List.range ps.length) :=
        (greedyGo_perm (fun _ => 0) (combinations2 (List.range ps.length))).mem_iff.mp hp
      rcases combinations2_mem_components _ p hpmem with ⟨h1, h2⟩
      rcases hcase with rfl | rfl
      · exact List.mem_range.mp h1
      · exact List.mem_range.mp h2
    have lift : ∀ y, y ∈ j :: comps
        ((greedyGo (fun _ => 0) (combinations2 (List.range ps.length))).take i) →
        y < ps.length := by
      intro y hy
      rcases List.mem_cons.mp hy with rfl | hy'
      · exact hj
      · exact hcompsG y hy'
    exact matchLoads_map (fun j' => ps.getD j' a) _ (fun _ => 0) (fun _ => 0) j
      (fun y _ => rfl)
      (fun y hy z hz hyz => hinj y (lift y hy) z (lift z hz) hyz)
  have hfa : ps.getD ja a = a := by
    rw [List.getD_eq_getElem ps a hja]
    simpa [List.get_eq_getElem] using hgeta
  have hfb : ps.getD jb a = b := by
    rw [List.getD_eq_getElem ps a hjb]
    simpa [List.get_eq_getElem] using hgetb
  rw [← hfa, ← hfb, key ja hja, key jb hjb]
  exact C2_base ps.length hlen i ja jb hja hjb

theorem C2_prefix_load_balance_amended_witness :
    matchLoads (fun _ => 0)
        ((greedyGo (fun _ => 0) (combinations2 (generate_participants 4))).take 3) 'A' ≤
      matchLoads (fun _ => 0)
        ((greedyGo (fun _ => 0) (combinations2 (generate_participants 4))).take 3) 'D'
        + 1 :=
  C2_prefix_load_balance_amended (generate_participants 4) (by decide) (by decide) 3 'A'
    (by decide) 'D' (by decide)

example : generate_participants 4 = ['A', 'B', 'C', 'D'] := by decide

example : combinations2 ['A', 'B', 'C'] = [('A', 'B'), ('A', 'C'), ('B', 'C')] := by decide

example : greedyGo (fun _ => 0) (combinations2 (generate_participants 4)) =
    [('A', 'B'), ('C', 'D'), ('A', 'C'), ('B', 'D'), ('A', 'D'), ('B', 'C')] := by decide

example : generate_matches (generate_participants 4) =
    [('A', 'B'), ('C', 'D'), ('A', 'C'), ('B', 'D'), ('D', 'A'), ('B', 'C')] := by decide

example : (split_participants (generate_participants 9)).map List.length = [4, 5] := by decide
